import Mathlib

/-!
Verification of the hand-written sampling, mining and retrieval routines of the
DeepLearningCourse notebooks (`Face_Verification_Using_Siamese_Nets.ipynb`,
`Face_Verification_Using_Triplet_Loss.ipynb` and the Totally-Looks-Like notebook).

The Python code is shallowly embedded:
  * float arithmetic is modelled over `ℝ` where square roots occur
    (L2 normalization, Euclidean distances) and over `ℚ` where the code only
    compares and adds similarity values (`build_negatives`, margin `0.25 = 1/4`);
  * `random.shuffle` / `random.sample` are modelled by an oracle
    `shuffle : List α → List α` together with the hypothesis `∀ l, shuffle l ~ l`
    (`random.sample(pool, k)` is `(shuffle pool).take k`: a prefix of a permuted
    pool, faithful to sampling without replacement);
  * `random.choice` / `random.randint` are modelled by an explicit stream of raw
    random numbers, reduced modulo the relevant length;
  * notebook globals (`classid_to_ids`, `id_to_classid`, `emb`, ...) become
    parameters of the embedded functions.
-/

namespace DLCourse

/-! ### Randomness primitives -/

/-- Model of `random.choice(l)`: pick the element at a stream-supplied position.
The raw stream value `r` is reduced modulo the length, so every list element is
reachable and a uniform raw value induces a uniform choice. -/
def pyChoice (l : List ℕ) (r : ℕ) : ℕ := l.getD (r % l.length) 0

/-- Model of `random.sample(pool, k)` (sampling without replacement): take the
`k`-prefix of an oracle-shuffled pool.  Theorems assume `shuffle pool ~ pool`. -/
def pySample {α : Type} (shuffle : List α → List α) (pool : List α) (k : ℕ) : List α :=
  (shuffle pool).take k

/-- Model of `random.randint(0, n-1)` for indexing a list of length `n`:
reduce the raw stream value modulo `n`. -/
def pyRandIdx (n r : ℕ) : ℕ := r % n

/-! ### Pair builders (both face-verification notebooks) -/

/-- Model of `itertools.combinations(l, 2)`: all pairs of elements taken at two
distinct positions, in lexicographic position order. -/
def combinations2 {α : Type} : List α → List (α × α)
  | [] => []
  | x :: xs => xs.map (fun y => (x, y)) ++ combinations2 xs

/-- Source: `build_pos_pairs_for_id` (identical in the Siamese and the Triplet
notebooks).  `classid_to_ids` is the notebook's class-to-image-ids mapping and
`shuffle` models `random.shuffle`. -/
def build_pos_pairs_for_id (classid_to_ids : ℕ → List ℕ)
    (shuffle : List (ℕ × ℕ) → List (ℕ × ℕ)) (classid : ℕ) (max_num : ℕ) :
    List (ℕ × ℕ) :=
  let imgs := classid_to_ids classid
  if imgs.length = 1 then []
  else (shuffle (combinations2 imgs)).take max_num

/-- Source: `build_neg_pairs_for_id` (Siamese notebook).  `shuffle` models the
`random.sample(classes, max_num+1)` call, `r1`/`r2` are the raw streams of the
two `random.randint` calls of each loop iteration. -/
def build_neg_pairs_for_id (classid_to_ids : ℕ → List ℕ)
    (shuffle : List ℕ → List ℕ) (r1 r2 : ℕ → ℕ)
    (classid : ℕ) (classes : List ℕ) (max_num : ℕ) : List (ℕ × ℕ) :=
  let imgs := classid_to_ids classid
  let sampled := pySample shuffle classes (max_num + 1)
  let neg_classes_ids := if classid ∈ sampled then sampled.erase classid else sampled
  (List.range max_num).map (fun id2 =>
    let img1 := imgs.getD (pyRandIdx imgs.length (r1 id2)) 0
    let imgs2 := classid_to_ids (neg_classes_ids.getD id2 0)
    let img2 := imgs2.getD (pyRandIdx imgs2.length (r2 id2)) 0
    (img1, img2))

/-! ### TripletGenerator (triplet notebook) -/

/-- Model of the numpy slice `l[lo:hi]`. -/
def npSlice {α : Type} (l : List α) (lo hi : ℕ) : List α := (l.drop lo).take (hi - lo)

/-- Source: `class TripletGenerator(tf.keras.utils.Sequence)` constructor state. -/
structure TripletGenerator (Img : Type) where
  Xa : List ℕ
  Xp : List ℕ
  batch_size : ℕ
  imgs : ℕ → Img
  neg_imgs_idx : List ℕ

/-- Source: `self.num_samples = Xa_train.shape[0]`. -/
def TripletGenerator.num_samples {Img : Type} (g : TripletGenerator Img) : ℕ :=
  g.Xa.length

/-- Source: `TripletGenerator.__len__`: `num_samples // batch_size`. -/
def TripletGenerator.len {Img : Type} (g : TripletGenerator Img) : ℕ :=
  g.num_samples / g.batch_size

/-- Source: `TripletGenerator.__getitem__`.  `augment` models the per-image
random augmentation `seq.augment_images` and `shuffle` models the
`random.sample` drawing of the negatives. -/
def TripletGenerator.getItem {Img : Type} (g : TripletGenerator Img)
    (augment : Img → Img) (shuffle : List ℕ → List ℕ) (batch_index : ℕ) :
    (List Img × List Img × List Img) × List ℚ :=
  let low_index := batch_index * g.batch_size
  let high_index := (batch_index + 1) * g.batch_size
  let imgs_a := npSlice g.Xa low_index high_index
  let imgs_p := npSlice g.Xp low_index high_index
  let imgs_n := pySample shuffle g.neg_imgs_idx imgs_a.length
  ((imgs_a.map (fun t => augment (g.imgs t)),
    imgs_p.map (fun t => augment (g.imgs t)),
    imgs_n.map (fun t => augment (g.imgs t))),
   List.replicate imgs_a.length 0)

/-! ### Hard negative mining (triplet notebook) -/

/-- Source: `intersect(a, b) = list(set(a) & set(b))`, modelled with a
deterministic order (Python's set order is unspecified) and deduplicated. -/
def intersect (a b : List ℕ) : List ℕ :=
  (a.filter (fun x => decide (x ∈ b))).dedup

/-- The candidate list of `build_negatives` for one anchor/positive pair:
`possible_ids = intersect(neg_imgs_idx, np.where(similarities[anc_idx] + 0.25 > sim)[0])`
where `sim = similarities[anc_idx, pos_idx]` and the `np.where` ranges over the
`nTotal` columns of the similarity matrix. -/
def possibleIds (S : ℕ → ℕ → ℚ) (nTotal : ℕ) (neg_imgs_idx : List ℕ)
    (anc_idx pos_idx : ℕ) : List ℕ :=
  intersect neg_imgs_idx
    ((List.range nTotal).filter (fun j => decide (S anc_idx pos_idx < S anc_idx j + 1/4)))

/-- The retry loop of `build_negatives`
(`for iteration in range(num_retries): ...`), with the running iteration
counter `it` selecting the stream slot of each `random.choice` call.
Returns `some idx_neg` when a draw with a class different from the anchor's is
found (`appended = True`), `none` when the loop exits without appending. -/
def mineNegAux (id_to_classid : ℕ → ℕ) (ancCls : ℕ) (possible_ids : List ℕ)
    (rnd : ℕ → ℕ) : ℕ → ℕ → Option ℕ
  | _, 0 => none
  | it, fuel + 1 =>
    if possible_ids.length = 0 then none
    else
      let idx_neg := possible_ids.getD (rnd it % possible_ids.length) 0
      if id_to_classid idx_neg ≠ ancCls then some idx_neg
      else mineNegAux id_to_classid ancCls possible_ids rnd (it + 1) fuel

/-- The mining branch of `build_negatives` for one pair: run the retry loop
from iteration `0` with `num_retries` iterations left. -/
def mineNeg (id_to_classid : ℕ → ℕ) (ancCls : ℕ) (possible_ids : List ℕ)
    (rnd : ℕ → ℕ) (num_retries : ℕ) : Option ℕ :=
  mineNegAux id_to_classid ancCls possible_ids rnd 0 num_retries

/-- Source: `build_negatives(anc_idxs, pos_idxs, similarities, neg_imgs_idx,
num_retries=20)`.  `similarities = none` models Python's `None`; `shuffle`
models the `random.sample` of the no-similarities branch, `rndMine pidx` the
`random.choice(possible_ids)` stream of pair number `pidx`, and `rndFall pidx`
the raw value of the fallback `random.choice(neg_imgs_idx)`. -/
def build_negatives (id_to_classid : ℕ → ℕ) (nTotal : ℕ)
    (anc_idxs pos_idxs : List ℕ) (similarities : Option (ℕ → ℕ → ℚ))
    (neg_imgs_idx : List ℕ) (shuffle : List ℕ → List ℕ)
    (rndMine : ℕ → ℕ → ℕ) (rndFall : ℕ → ℕ) (num_retries : ℕ) : List ℕ :=
  match similarities with
  | none => pySample shuffle neg_imgs_idx anc_idxs.length
  | some S =>
    ((anc_idxs.zip pos_idxs).enum).map (fun pr =>
      let pidx := pr.1
      let anc_idx := pr.2.1
      let pos_idx := pr.2.2
      let ancCls := id_to_classid anc_idx
      match mineNeg id_to_classid ancCls (possibleIds S nTotal neg_imgs_idx anc_idx pos_idx)
          (rndMine pidx) num_retries with
      | some idx_neg => idx_neg
      | none => pyChoice neg_imgs_idx (rndFall pidx))

/-- A stream of raw random values drawn from `Fin m`, one per retry slot, used
to state uniformity of the retry loop's draws. -/
def finStream {fuel m : ℕ} (s : Fin fuel → Fin m) : ℕ → ℕ :=
  fun t => if h : t < fuel then (s ⟨t, h⟩ : Fin m).val else 0

/-! ### Similarity matrices and nearest-neighbour retrieval (real-valued) -/

noncomputable section

/-- Dot product of two `d`-dimensional real vectors (`np.dot` on rows). -/
def dot {d : ℕ} (x y : Fin d → ℝ) : ℝ := ∑ k, x k * y k

/-- Source: `np.linalg.norm(v)` for a vector, the L2 norm. -/
def l2norm {d : ℕ} (v : Fin d → ℝ) : ℝ := Real.sqrt (∑ k, v k ^ 2)

/-- Source: `v / np.linalg.norm(v)`, one row of
`embs / np.linalg.norm(embs, axis=-1, keepdims=True)`. -/
def normalizeRow {d : ℕ} (v : Fin d → ℝ) : Fin d → ℝ := fun k => v k / l2norm v

/-- Source: `build_similarities(conv, all_imgs)`: embed every image through the
network (`conv.predict`, modelled as a function `conv`), L2-normalize every
row, and return the matrix of pairwise dot products `np.dot(embs, embs.T)`. -/
def build_similarities {Img : Type} {n d : ℕ} (conv : Img → Fin d → ℝ)
    (all_imgs : Fin n → Img) : Fin n → Fin n → ℝ :=
  fun i j => dot (normalizeRow (conv (all_imgs i))) (normalizeRow (conv (all_imgs j)))

/-- Model of `np.argsort(key)`: the indices `0..n-1` sorted so that the keys
are non-decreasing (ties in a fixed deterministic order; numpy leaves the tie
order unspecified). -/
def argsort {n : ℕ} (key : Fin n → ℝ) : List (Fin n) :=
  List.insertionSort (fun i j => key i ≤ key j) (List.finRange n)

/-- The similarity vector of the `"cosine"` branch of `most_sim`:
`sims = np.dot(emb, x)` where `x = emb[idx] / np.linalg.norm(emb[idx])`. -/
def cosSims {n d : ℕ} (emb : Fin n → Fin d → ℝ) (idx : Fin n) : Fin n → ℝ :=
  fun j => dot (emb j) (normalizeRow (emb idx))

/-- The distance vector of the `"euclidean"` branch of `most_sim`:
`dists = np.linalg.norm(emb - x, axis=-1)` with `x = emb[idx]`. -/
def eucDists {n d : ℕ} (emb : Fin n → Fin d → ℝ) (idx : Fin n) : Fin n → ℝ :=
  fun j => l2norm (fun k => emb j k - emb idx k)

/-- The distance vector of the pixel-space (`else`) branch of `most_sim`:
`dists = np.linalg.norm(pixelwise - pixelwise[idx], axis=-1)`. -/
def pixDists {n m : ℕ} (pixelwise : Fin n → Fin m → ℝ) (idx : Fin n) : Fin n → ℝ :=
  fun j => l2norm (fun k => pixelwise j k - pixelwise idx k)

/-- The three modes of `most_sim`. -/
inductive SimMode
  | cosine
  | euclidean
  | image

/-- Source: `most_sim(idx, topn=5, mode="cosine")` of the triplet notebook.
The `"cosine"` branch reverses an ascending argsort (`np.argsort(sims)[::-1]`)
and returns `(id, sims[id])` for the first `topn` ids; the `"euclidean"` and
pixel-space branches use an ascending argsort of the distances. -/
def most_sim {n d m : ℕ} (emb : Fin n → Fin d → ℝ) (pixelwise : Fin n → Fin m → ℝ)
    (idx : Fin n) (topn : ℕ) (mode : SimMode) : List (Fin n × ℝ) :=
  match mode with
  | .cosine =>
    let sims := cosSims emb idx
    let ids := (argsort sims).reverse
    (ids.take topn).map (fun i => (i, sims i))
  | .euclidean =>
    let dists := eucDists emb idx
    let ids := argsort dists
    (ids.take topn).map (fun i => (i, dists i))
  | .image =>
    let dists := pixDists pixelwise idx
    let ids := argsort dists
    (ids.take topn).map (fun i => (i, dists i))

/-- The distance vector of `most_similar` in the Totally-Looks-Like notebook:
`dists = tf.sqrt(tf.reduce_sum((all_embeddings - new_emb)**2, -1))`, where
`new_emb` is the embedding of the query image. -/
def tllDists {n d : ℕ} (all_embeddings : Fin n → Fin d → ℝ) (new_emb : Fin d → ℝ) :
    Fin n → ℝ :=
  fun j => Real.sqrt (∑ k, (all_embeddings j k - new_emb k) ^ 2)

/-- Source: `most_similar(img, topn=5)` of the Totally-Looks-Like notebook:
`idxs = np.argsort(dists)[:topn]`, returning `(negative_images[idx], dists[idx])`. -/
def most_similar {Img : Type} {n d : ℕ} (all_embeddings : Fin n → Fin d → ℝ)
    (new_emb : Fin d → ℝ) (negative_images : Fin n → Img) (topn : ℕ) :
    List (Img × ℝ) :=
  let dists := tllDists all_embeddings new_emb
  let idxs := (argsort dists).take topn
  idxs.map (fun i => (negative_images i, dists i))

/-! ### Recall@k evaluation (triplet notebook) -/

/-- Source: the `test_ids` cell — all image ids of the classes in
`range(split_num, num_classes - 1)` that have more than one image. -/
def test_ids {n : ℕ} (classid_to_ids : ℕ → List (Fin n))
    (split_num num_classes : ℕ) : List (Fin n) :=
  (List.range' split_num (num_classes - 1 - split_num)).flatMap
    (fun class_id =>
      let img_ids := classid_to_ids class_id
      if 1 < img_ids.length then img_ids else [])

/-- The three modes of `recall_k`. -/
inductive RecallMode
  | embedding
  | random
  | image

/-- Source: `recall_k(k=10, mode="embedding")` of the triplet notebook.  For
each test query the found classes are those of `most_sim(img_idx, topn=k+1)`
with the first entry dropped (`[1:]`); `rndSample q` models the
`random.sample(list(set(all_img_test_idx + all_img_train_idx) - {img_idx}), k)`
call of the `"random"` mode.  Returns `num_found / len(test_ids)`. -/
def recall_k {n d m : ℕ} (emb : Fin n → Fin d → ℝ) (pixelwise : Fin n → Fin m → ℝ)
    (id_to_classid : Fin n → ℕ) (classid_to_ids : ℕ → List (Fin n))
    (split_num num_classes : ℕ) (rndSample : Fin n → List (Fin n))
    (k : ℕ) (mode : RecallMode) : ℚ :=
  let tids := test_ids classid_to_ids split_num num_classes
  let num_found := tids.countP (fun img_idx =>
    let imageCls := id_to_classid img_idx
    let found_classes : List ℕ :=
      match mode with
      | .embedding =>
        ((most_sim emb pixelwise img_idx (k + 1) .cosine).drop 1).map
          (fun p => id_to_classid p.1)
      | .random => (rndSample img_idx).map id_to_classid
      | .image =>
        ((most_sim emb pixelwise img_idx (k + 1) .image).drop 1).map
          (fun p => id_to_classid p.1)
    found_classes.contains imageCls)
  (num_found : ℚ) / (tids.length : ℚ)

/-- Modelled from the spec: the top-`k` most similar images to query `q` under
the cosine ranking of `most_sim`, with the query itself excluded from the
retrieved list.  Used as the specification side of the Recall@k claim. -/
def spec_topk_excluding_query {n d : ℕ} (emb : Fin n → Fin d → ℝ) (q : Fin n)
    (k : ℕ) : List (Fin n) :=
  (((argsort (cosSims emb q)).reverse).filter (fun j => decide (j ≠ q))).take k

end

/-- Exchange of the two values `a` and `b`, used to state that the retry loop
of `build_negatives` treats any two acceptable candidates symmetrically. -/
def swapVal (a b v : ℕ) : ℕ := if v = a then b else if v = b then a else v

/-! ### Helper lemmas: sampling and pair builders -/

theorem pySample_length {α : Type} {shuffle : List α → List α} {pool : List α}
    (hp : List.Perm (shuffle pool) pool) {k : ℕ} (hk : k ≤ pool.length) :
    (pySample shuffle pool k).length = k := by
  simp [pySample, hp.length_eq, hk]

theorem pySample_subset {α : Type} {shuffle : List α → List α} {pool : List α}
    (hp : List.Perm (shuffle pool) pool) {k : ℕ} {x : α}
    (hx : x ∈ pySample shuffle pool k) : x ∈ pool :=
  hp.mem_iff.1 (List.mem_of_mem_take hx)

theorem pySample_nodup {α : Type} {shuffle : List α → List α} {pool : List α}
    (hp : List.Perm (shuffle pool) pool) (hnd : pool.Nodup) {k : ℕ} :
    (pySample shuffle pool k).Nodup :=
  ((hp.nodup_iff.2 hnd).sublist (List.take_sublist k (shuffle pool)) : _)

theorem mem_combinations2 {α : Type} {l : List α} {p : α × α}
    (hp : p ∈ combinations2 l) : p.1 ∈ l ∧ p.2 ∈ l := by
  induction l with
  | nil => simp [combinations2] at hp
  | cons x xs ih =>
    simp only [combinations2, List.mem_append, List.mem_map] at hp
    rcases hp with ⟨y, hy, rfl⟩ | h
    · exact ⟨List.mem_cons_self x xs, List.mem_cons_of_mem x hy⟩
    · exact ⟨List.mem_cons_of_mem x (ih h).1, List.mem_cons_of_mem x (ih h).2⟩

theorem combinations2_ne {α : Type} {l : List α} (hnd : l.Nodup) {p : α × α}
    (hp : p ∈ combinations2 l) : p.1 ≠ p.2 := by
  induction l with
  | nil => simp [combinations2] at hp
  | cons x xs ih =>
    simp only [combinations2, List.mem_append, List.mem_map] at hp
    rcases hp with ⟨y, hy, rfl⟩ | h
    · intro he
      simp only at he
      exact (List.nodup_cons.1 hnd).1 (he ▸ hy)
    · exact ih (List.nodup_cons.1 hnd).2 h

/-! ### Helper lemmas: the mining loop -/

theorem getD_mem_of_length_pos {l : List ℕ} (h : l.length ≠ 0) (r : ℕ) :
    l.getD (r % l.length) 0 ∈ l := by
  have hlt : r % l.length < l.length := Nat.mod_lt r (Nat.pos_of_ne_zero h)
  rw [List.getD_eq_getElem l 0 hlt]
  exact List.getElem_mem hlt

theorem mineNegAux_some {cls : ℕ → ℕ} {anc : ℕ} {poss : List ℕ} {rnd : ℕ → ℕ}
    {it fuel : ℕ} {v : ℕ}
    (h : mineNegAux cls anc poss rnd it fuel = some v) :
    v ∈ poss ∧ cls v ≠ anc := by
  induction fuel generalizing it with
  | zero => simp [mineNegAux] at h
  | succ fuel ih =>
    rw [mineNegAux] at h
    by_cases hlen : poss.length = 0
    · simp [hlen] at h
    · simp only [hlen, if_false] at h
      by_cases hcls : cls (poss.getD (rnd it % poss.length) 0) ≠ anc
      · rw [if_pos hcls] at h
        exact ⟨Option.some_injective _ h ▸ getD_mem_of_length_pos hlen (rnd it),
          Option.some_injective _ h ▸ hcls⟩
      · rw [if_neg hcls] at h
        exact ih h

theorem mineNegAux_none_iff {cls : ℕ → ℕ} {anc : ℕ} {poss : List ℕ} {rnd : ℕ → ℕ}
    {it fuel : ℕ} :
    mineNegAux cls anc poss rnd it fuel = none ↔
      poss = [] ∨ ∀ j < fuel, cls (poss.getD (rnd (it + j) % poss.length) 0) = anc := by
  induction fuel generalizing it with
  | zero => simp [mineNegAux]
  | succ fuel ih =>
    rw [mineNegAux]
    by_cases hlen : poss.length = 0
    · simp [List.length_eq_zero.1 hlen]
    · simp only [hlen, if_false]
      have hposs : poss ≠ [] := fun he => hlen (by simp [he])
      by_cases hcls : cls (poss.getD (rnd it % poss.length) 0) ≠ anc
      · rw [if_pos hcls]
        simp only [hposs, false_or]
        constructor
        · intro h; exact absurd h (by simp)
        · intro h
          exact absurd (by simpa using h 0 (Nat.succ_pos fuel)) hcls
      · rw [if_neg hcls]
        rw [ih]
        simp only [hposs, false_or]
        push_neg at hcls
        constructor
        · intro h j hj
          rcases Nat.eq_zero_or_pos j with rfl | hjpos
          · simpa using hcls
          · have := h (j - 1) (by omega)
            have harg : it + 1 + (j - 1) = it + j := by omega
            rwa [harg] at this
        · intro h j hj
          have := h (j + 1) (by omega)
          have harg : it + (j + 1) = it + 1 + j := by omega
          rwa [harg] at this

theorem mineNeg_some {cls : ℕ → ℕ} {anc : ℕ} {poss : List ℕ} {rnd : ℕ → ℕ}
    {fuel : ℕ} {v : ℕ} (h : mineNeg cls anc poss rnd fuel = some v) :
    v ∈ poss ∧ cls v ≠ anc :=
  mineNegAux_some h

theorem mineNeg_none_iff {cls : ℕ → ℕ} {anc : ℕ} {poss : List ℕ} {rnd : ℕ → ℕ}
    {fuel : ℕ} :
    mineNeg cls anc poss rnd fuel = none ↔
      poss = [] ∨ ∀ t < fuel, cls (poss.getD (rnd t % poss.length) 0) = anc := by
  rw [mineNeg, mineNegAux_none_iff]
  simp

theorem mem_possibleIds {S : ℕ → ℕ → ℚ} {nTotal : ℕ} {pool : List ℕ}
    {a p v : ℕ} :
    v ∈ possibleIds S nTotal pool a p ↔
      v ∈ pool ∧ v < nTotal ∧ S a p < S a v + 1/4 := by
  simp only [possibleIds, intersect, List.mem_dedup, List.mem_filter,
    decide_eq_true_eq, List.mem_range]

theorem possibleIds_nodup {S : ℕ → ℕ → ℚ} {nTotal : ℕ} {pool : List ℕ}
    {a p : ℕ} : (possibleIds S nTotal pool a p).Nodup :=
  List.nodup_dedup _

theorem build_negatives_getElem? {cls : ℕ → ℕ} {nTotal : ℕ}
    {anc_idxs pos_idxs : List ℕ} {S : ℕ → ℕ → ℚ} {pool : List ℕ}
    {shuffle : List ℕ → List ℕ} {rndMine : ℕ → ℕ → ℕ} {rndFall : ℕ → ℕ}
    {fuel : ℕ} {pidx : ℕ} {a p : ℕ}
    (hpair : (anc_idxs.zip pos_idxs)[pidx]? = some (a, p)) :
    (build_negatives cls nTotal anc_idxs pos_idxs (some S) pool shuffle rndMine
        rndFall fuel)[pidx]? =
      some (match mineNeg cls (cls a) (possibleIds S nTotal pool a p)
          (rndMine pidx) fuel with
        | some v => v
        | none => pyChoice pool (rndFall pidx)) := by
  simp [build_negatives, List.getElem?_enum, hpair]

/-! ### Helper lemmas: argsort and sorted prefixes -/

theorem argsort_perm {n : ℕ} (key : Fin n → ℝ) :
    List.Perm (argsort key) (List.finRange n) :=
  List.perm_insertionSort _ _

theorem argsort_sorted {n : ℕ} (key : Fin n → ℝ) :
    (argsort key).Sorted (fun i j => key i ≤ key j) := by
  haveI : IsTotal (Fin n) (fun i j => key i ≤ key j) :=
    ⟨fun a b => le_total (key a) (key b)⟩
  haveI : IsTrans (Fin n) (fun i j => key i ≤ key j) :=
    ⟨fun a b c hab hbc => le_trans hab hbc⟩
  exact List.sorted_insertionSort _ _

theorem argsort_nodup {n : ℕ} (key : Fin n → ℝ) : (argsort key).Nodup :=
  (argsort_perm key).nodup_iff.2 (List.nodup_finRange n)

theorem mem_argsort {n : ℕ} (key : Fin n → ℝ) (j : Fin n) : j ∈ argsort key :=
  (argsort_perm key).mem_iff.2 (List.mem_finRange j)

theorem argsort_length {n : ℕ} (key : Fin n → ℝ) : (argsort key).length = n :=
  (argsort_perm key).length_eq.trans (List.length_finRange n)

theorem pairwise_take {α : Type} {r : α → α → Prop} {l : List α}
    (h : l.Pairwise r) (t : ℕ) : (l.take t).Pairwise r :=
  h.sublist (List.take_sublist t l)

theorem pairwise_take_drop {α : Type} {r : α → α → Prop} {l : List α}
    (h : l.Pairwise r) (t : ℕ) {a b : α} (ha : a ∈ l.take t)
    (hb : b ∈ l.drop t) : r a b := by
  have h2 : (l.take t ++ l.drop t).Pairwise r := by
    rw [List.take_append_drop]; exact h
  exact (List.pairwise_append.1 h2).2.2 a ha b hb

/-! ### Helper lemmas: symmetry of the retry loop under swapping candidates -/

theorem swapVal_left (a b : ℕ) : swapVal a b a = b := by
  simp [swapVal]

theorem swapVal_right (a b : ℕ) : swapVal a b b = a := by
  by_cases h : b = a <;> simp [swapVal, h]

theorem swapVal_other {a b v : ℕ} (ha : v ≠ a) (hb : v ≠ b) : swapVal a b v = v := by
  simp [swapVal, ha, hb]

theorem swapVal_involutive (a b v : ℕ) : swapVal a b (swapVal a b v) = v := by
  unfold swapVal
  split_ifs <;> simp_all

theorem finStream_apply {fuel m : ℕ} (s : Fin fuel → Fin m) {t : ℕ}
    (h : t < fuel) : finStream s t = (s ⟨t, h⟩ : Fin m).val := by
  simp [finStream, h]

theorem mineNegAux_swapStream {cls : ℕ → ℕ} {anc : ℕ} {poss : List ℕ}
    (hnd : poss.Nodup) {fuel : ℕ} (p1 p2 : Fin poss.length)
    (h1c : cls (poss.get p1) ≠ anc) (h2c : cls (poss.get p2) ≠ anc)
    (s : Fin fuel → Fin poss.length) :
    ∀ fuelLeft it, it + fuelLeft ≤ fuel →
      mineNegAux cls anc poss (finStream (fun t => Equiv.swap p1 p2 (s t))) it fuelLeft =
        Option.map (swapVal (poss.get p1) (poss.get p2))
          (mineNegAux cls anc poss (finStream s) it fuelLeft) := by
  have hm : poss.length ≠ 0 := by have := p1.isLt; omega
  by_cases hp12 : p1 = p2
  · subst hp12
    have hseq : (fun t => Equiv.swap p1 p1 (s t)) = s := by
      funext t; simp
    intro fuelLeft it _
    rw [hseq]
    cases hres : mineNegAux cls anc poss (finStream s) it fuelLeft with
    | none => simp
    | some v =>
      have hsv : swapVal (poss.get p1) (poss.get p1) v = v := by
        unfold swapVal
        split_ifs <;> simp_all
      simp only [Option.map_some']
      exact congrArg some hsv.symm
  · have hne : poss.get p1 ≠ poss.get p2 := fun he => hp12 ((hnd.get_inj_iff).1 he)
    intro fuelLeft
    induction fuelLeft with
    | zero => intro it _; simp [mineNegAux]
    | succ fl ih =>
      intro it hle
      have hit : it < fuel := by omega
      rw [mineNegAux, mineNegAux]
      simp only [hm, if_false]
      have hs : finStream s it = (s ⟨it, hit⟩ : Fin poss.length).val :=
        finStream_apply s hit
      have hs' : finStream (fun t => Equiv.swap p1 p2 (s t)) it =
          (Equiv.swap p1 p2 (s ⟨it, hit⟩) : Fin poss.length).val :=
        finStream_apply _ hit
      set u : Fin poss.length := s ⟨it, hit⟩ with hu
      have hmod : u.val % poss.length = u.val := Nat.mod_eq_of_lt u.isLt
      have hmod' : (Equiv.swap p1 p2 u).val % poss.length = (Equiv.swap p1 p2 u).val :=
        Nat.mod_eq_of_lt (Equiv.swap p1 p2 u).isLt
      have hgd : poss.getD (finStream s it % poss.length) 0 = poss.get u := by
        rw [hs, hmod, List.getD_eq_getElem poss 0 u.isLt]
        rfl
      have hgd' : poss.getD (finStream (fun t => Equiv.swap p1 p2 (s t)) it % poss.length) 0 =
          poss.get (Equiv.swap p1 p2 u) := by
        rw [hs', hmod', List.getD_eq_getElem poss 0 (Equiv.swap p1 p2 u).isLt]
        rfl
      rw [hgd, hgd']
      rcases eq_or_ne u p1 with hup | hup
      · subst hup
        rw [Equiv.swap_apply_left]
        rw [if_pos h2c, if_pos h1c]
        simp only [Option.map_some']
        rw [swapVal_left]
      · rcases eq_or_ne u p2 with huq | huq
        · subst huq
          rw [Equiv.swap_apply_right]
          rw [if_pos h1c, if_pos h2c]
          simp only [Option.map_some']
          rw [swapVal_right]
        · rw [Equiv.swap_apply_of_ne_of_ne hup huq]
          by_cases hacc : cls (poss.get u) ≠ anc
          · rw [if_pos hacc, if_pos hacc]
            simp only [Option.map_some']
            have hv1 : poss.get u ≠ poss.get p1 := fun he => hup ((hnd.get_inj_iff).1 he)
            have hv2 : poss.get u ≠ poss.get p2 := fun he => huq ((hnd.get_inj_iff).1 he)
            rw [swapVal_other hv1 hv2]
          · rw [if_neg hacc, if_neg hacc]
            exact ih (it + 1) (by omega)

theorem mineNeg_uniform_count {cls : ℕ → ℕ} {anc : ℕ} {poss : List ℕ}
    (hnd : poss.Nodup) (fuel : ℕ) {n1 n2 : ℕ}
    (h1 : n1 ∈ poss) (h1c : cls n1 ≠ anc) (h2 : n2 ∈ poss) (h2c : cls n2 ≠ anc) :
    (Finset.univ.filter (fun s : Fin fuel → Fin poss.length =>
        mineNeg cls anc poss (finStream s) fuel = some n1)).card =
      (Finset.univ.filter (fun s : Fin fuel → Fin poss.length =>
        mineNeg cls anc poss (finStream s) fuel = some n2)).card := by
  classical
  set p1 : Fin poss.length := ⟨poss.indexOf n1, List.indexOf_lt_length.2 h1⟩ with hp1
  set p2 : Fin poss.length := ⟨poss.indexOf n2, List.indexOf_lt_length.2 h2⟩ with hp2
  have hg1 : poss.get p1 = n1 := List.getElem_indexOf (List.indexOf_lt_length.2 h1)
  have hg2 : poss.get p2 = n2 := List.getElem_indexOf (List.indexOf_lt_length.2 h2)
  have h1c' : cls (poss.get p1) ≠ anc := by rw [hg1]; exact h1c
  have h2c' : cls (poss.get p2) ≠ anc := by rw [hg2]; exact h2c
  have key : ∀ s : Fin fuel → Fin poss.length,
      mineNeg cls anc poss (finStream (fun t => Equiv.swap p1 p2 (s t))) fuel =
        Option.map (swapVal n1 n2) (mineNeg cls anc poss (finStream s) fuel) := by
    intro s
    have := mineNegAux_swapStream hnd p1 p2 h1c' h2c' s fuel 0 (by omega)
    rw [hg1, hg2] at this
    exact this
  have hmem : ∀ s : Fin fuel → Fin poss.length,
      mineNeg cls anc poss (finStream s) fuel = some n2 →
        mineNeg cls anc poss (finStream (fun t => Equiv.swap p1 p2 (s t))) fuel = some n1 := by
    intro s hs
    rw [key s, hs]
    simp [swapVal_right]
  have hmem' : ∀ s : Fin fuel → Fin poss.length,
      mineNeg cls anc poss (finStream s) fuel = some n1 →
        mineNeg cls anc poss (finStream (fun t => Equiv.swap p1 p2 (s t))) fuel = some n2 := by
    intro s hs
    rw [key s, hs]
    simp [swapVal_left]
  have hinv : ∀ s : Fin fuel → Fin poss.length,
      (fun t => Equiv.swap p1 p2 ((fun t' => Equiv.swap p1 p2 (s t')) t)) = s := by
    intro s
    funext t
    exact Equiv.swap_apply_self p1 p2 (s t)
  symm
  refine Finset.card_nbij' (fun s => fun t => Equiv.swap p1 p2 (s t))
    (fun s => fun t => Equiv.swap p1 p2 (s t)) ?_ ?_ ?_ ?_
  · intro s hs
    simp only [Finset.mem_filter, Finset.mem_univ, true_and] at hs ⊢
    exact hmem s hs
  · intro s hs
    simp only [Finset.mem_filter, Finset.mem_univ, true_and] at hs ⊢
    exact hmem' s hs
  · intro s _
    exact hinv s
  · intro s _
    exact hinv s

/-! ### Claim C1 -/

/-- Claim C1: every negative `nneg` that `build_negatives` selects through its
mining branch (the retry loop, not the random fallback) for the
anchor/positive pair `(a, p)` is placed in the output at that pair's position,
is a member of the negative pool, satisfies `S[a,nneg] + 0.25 > S[a,p]`
(margin `1/4`), and its class differs from the anchor's class. -/
theorem C1_mining_branch_negative_is_semi_hard
    {cls : ℕ → ℕ} {nTotal : ℕ} {anc_idxs pos_idxs : List ℕ}
    {S : ℕ → ℕ → ℚ} {pool : List ℕ} {shuffle : List ℕ → List ℕ}
    {rndMine : ℕ → ℕ → ℕ} {rndFall : ℕ → ℕ} {fuel : ℕ}
    {pidx a p nneg : ℕ}
    (hpair : (anc_idxs.zip pos_idxs)[pidx]? = some (a, p))
    (hmine : mineNeg cls (cls a) (possibleIds S nTotal pool a p)
      (rndMine pidx) fuel = some nneg) :
    (build_negatives cls nTotal anc_idxs pos_idxs (some S) pool shuffle rndMine
        rndFall fuel)[pidx]? = some nneg
    ∧ nneg ∈ pool ∧ S a nneg + 1/4 > S a p ∧ cls nneg ≠ cls a := by
  have hout := @build_negatives_getElem? cls nTotal anc_idxs pos_idxs S pool
    shuffle rndMine rndFall fuel pidx a p hpair
  rw [hmine] at hout
  have hprops := mineNeg_some hmine
  have hm := mem_possibleIds.1 hprops.1
  exact ⟨hout, hm.1, hm.2.2, hprops.2⟩

/-- Claim C1 witness: a concrete run in which the mining branch succeeds and
the theorem applies. -/
theorem C1_witness :
    (([0].zip [1] : List (ℕ × ℕ))[0]? = some (0, 1)
      ∧ mineNeg (fun j => j) ((fun j => j : ℕ → ℕ) 0)
          (possibleIds (fun _ _ => 0) 4 [3] 0 1) ((fun _ _ => (0:ℕ)) 0) 20 = some 3)
    ∧ ((build_negatives (fun j => j) 4 [0] [1] (some (fun _ _ => 0)) [3]
          (fun l => l) (fun _ _ => 0) (fun _ => 0) 20)[0]? = some 3
        ∧ 3 ∈ [3] ∧ (fun _ _ => (0 : ℚ)) 0 3 + 1/4 > (fun _ _ => (0 : ℚ)) 0 1
        ∧ ((fun j => j) : ℕ → ℕ) 3 ≠ ((fun j => j) : ℕ → ℕ) 0) := by
  have hposs : possibleIds (fun _ _ => 0) 4 [3] 0 1 = [3] := by
    have h : ((0:ℚ) < 0 + 1/4) := by norm_num
    simp [possibleIds, intersect, List.range_succ, List.filter, h]
  have hmine : mineNeg (fun j => j) ((fun j => j : ℕ → ℕ) 0)
      (possibleIds (fun _ _ => 0) 4 [3] 0 1) ((fun _ _ => (0:ℕ)) 0) 20 = some 3 := by
    rw [hposs]; decide
  exact ⟨⟨by decide, hmine⟩,
    C1_mining_branch_negative_is_semi_hard (by decide) hmine⟩

/-! ### Claim C2 -/

/-- Claim C2 counterexample: an acceptable candidate (pool member `3`,
semi-hard, class different from the anchor's) exists, yet `build_negatives`
falls back and returns the pool member `2`, whose class equals the anchor's:
twenty retries all draw the same-class candidate `2` from `possible_ids`,
so the fallback is taken even though an acceptable candidate exists. -/
theorem C2_counterexample :
    ((3 : ℕ) ∈ ([2, 3] : List ℕ)
      ∧ (fun _ _ => (0 : ℚ)) 0 3 + 1/4 > (fun _ _ => (0 : ℚ)) 0 1
      ∧ ((fun j => if j = 3 then 1 else 0) : ℕ → ℕ) 3 ≠
          ((fun j => if j = 3 then 1 else 0) : ℕ → ℕ) 0)
    ∧ build_negatives (fun j => if j = 3 then 1 else 0) 4 [0] [1]
        (some (fun _ _ => 0)) [2, 3] (fun l => l) (fun _ _ => 0) (fun _ => 0) 20
        = [2]
    ∧ ((fun j => if j = 3 then 1 else 0) : ℕ → ℕ) 2 =
        ((fun j => if j = 3 then 1 else 0) : ℕ → ℕ) 0 := by
  have hposs : possibleIds (fun _ _ => 0) 4 [2, 3] 0 1 = [2, 3] := by
    have h : ((0:ℚ) < 0 + 1/4) := by norm_num
    simp [possibleIds, intersect, List.range_succ, List.filter, h]
  have hmine : mineNeg (fun j => if j = 3 then 1 else 0)
      ((fun j => if j = 3 then 1 else 0 : ℕ → ℕ) 0)
      (possibleIds (fun _ _ => 0) 4 [2, 3] 0 1) ((fun _ _ => (0:ℕ)) 0) 20 = none := by
    rw [hposs]; decide
  refine ⟨⟨by decide, by norm_num, by decide⟩, ?_, by decide⟩
  have hstep : build_negatives (fun j => if j = 3 then 1 else 0) 4 [0] [1]
      (some (fun _ _ => 0)) [2, 3] (fun l => l) (fun _ _ => 0) (fun _ => 0) 20
      = [match mineNeg (fun j => if j = 3 then 1 else 0)
            ((fun j => if j = 3 then 1 else 0 : ℕ → ℕ) 0)
            (possibleIds (fun _ _ => 0) 4 [2, 3] 0 1) ((fun _ _ => (0:ℕ)) 0) 20 with
          | some v => v
          | none => pyChoice [2, 3] ((fun _ => (0:ℕ)) 0)] := rfl
  rw [hstep, hmine]
  decide

/-- Claim C2 (amended): for each anchor/positive pair the retry loop draws
uniformly from `possible_ids` (which may also contain same-class candidates)
at most `num_retries` times and keeps the first draw whose class differs from
the anchor's; the fallback to a uniformly random pool member is taken exactly
when `possible_ids` is empty or all `num_retries` draws hit same-class
candidates — so the fallback can be taken even when acceptable candidates
exist.  Every mined value is an acceptable candidate, and any two acceptable
candidates are selected by equally many draw streams (uniformity among
acceptable candidates, conditional on the mining branch succeeding). -/
theorem C2_semi_hard_selection_amended
    (cls : ℕ → ℕ) (anc : ℕ) (poss : List ℕ) (rnd : ℕ → ℕ) (fuel : ℕ)
    (hnd : poss.Nodup) {n1 n2 : ℕ}
    (h1 : n1 ∈ poss) (h1c : cls n1 ≠ anc) (h2 : n2 ∈ poss) (h2c : cls n2 ≠ anc) :
    (mineNeg cls anc poss rnd fuel = none ↔
      poss = [] ∨ ∀ t < fuel, cls (poss.getD (rnd t % poss.length) 0) = anc)
    ∧ (∀ v, mineNeg cls anc poss rnd fuel = some v → v ∈ poss ∧ cls v ≠ anc)
    ∧ (Finset.univ.filter (fun s : Fin fuel → Fin poss.length =>
          mineNeg cls anc poss (finStream s) fuel = some n1)).card =
        (Finset.univ.filter (fun s : Fin fuel → Fin poss.length =>
          mineNeg cls anc poss (finStream s) fuel = some n2)).card
    ∧ ∀ (S : ℕ → ℕ → ℚ) (nT : ℕ) (ancl posl pool : List ℕ)
        (shuffle : List ℕ → List ℕ) (rndM : ℕ → ℕ → ℕ) (rndF : ℕ → ℕ)
        (pidx a p : ℕ),
        (ancl.zip posl)[pidx]? = some (a, p) →
        mineNeg cls (cls a) (possibleIds S nT pool a p) (rndM pidx) fuel = none →
        (build_negatives cls nT ancl posl (some S) pool shuffle rndM rndF
            fuel)[pidx]? = some (pyChoice pool (rndF pidx)) := by
  refine ⟨mineNeg_none_iff, fun v hv => mineNeg_some hv,
    mineNeg_uniform_count hnd fuel h1 h1c h2 h2c,
    fun S nT ancl posl pool shuffle rndM rndF pidx a p hpair hnone => ?_⟩
  have hout := @build_negatives_getElem? cls nT ancl posl S pool
    shuffle rndM rndF fuel pidx a p hpair
  rw [hnone] at hout
  exact hout

/-- Claim C2 witness: the amended theorem applied at a concrete input with two
acceptable candidates, yielding the uniformity count equation. -/
theorem C2_amended_witness :
    (([1, 2] : List ℕ).Nodup
      ∧ (1 : ℕ) ∈ ([1, 2] : List ℕ) ∧ ((fun j => j) : ℕ → ℕ) 1 ≠ 0
      ∧ (2 : ℕ) ∈ ([1, 2] : List ℕ) ∧ ((fun j => j) : ℕ → ℕ) 2 ≠ 0)
    ∧ (Finset.univ.filter (fun s : Fin 1 → Fin ([1, 2] : List ℕ).length =>
          mineNeg (fun j => j) 0 [1, 2] (finStream s) 1 = some 1)).card =
        (Finset.univ.filter (fun s : Fin 1 → Fin ([1, 2] : List ℕ).length =>
          mineNeg (fun j => j) 0 [1, 2] (finStream s) 1 = some 2)).card :=
  ⟨⟨by decide, by decide, by decide, by decide, by decide⟩,
    (C2_semi_hard_selection_amended (fun j => j) 0 [1, 2] (fun _ => 0) 1
      (by decide) (by decide) (by decide) (by decide) (by decide)).2.2.1⟩

/-! ### Claim C6 -/

/-- Claim C6: `build_pos_pairs_for_id` returns the empty list when the class
has exactly one image; otherwise it returns at most `max_num` pairs, each made
of two distinct image ids that both belong to the class. -/
theorem C6_build_pos_pairs_for_id_shape
    (classid_to_ids : ℕ → List ℕ) (shuffle : List (ℕ × ℕ) → List (ℕ × ℕ))
    (classid max_num : ℕ)
    (hshuffle : ∀ l, List.Perm (shuffle l) l)
    (hnd : (classid_to_ids classid).Nodup) :
    ((classid_to_ids classid).length = 1 →
      build_pos_pairs_for_id classid_to_ids shuffle classid max_num = [])
    ∧ (build_pos_pairs_for_id classid_to_ids shuffle classid max_num).length ≤ max_num
    ∧ ∀ pr ∈ build_pos_pairs_for_id classid_to_ids shuffle classid max_num,
        pr.1 ∈ classid_to_ids classid ∧ pr.2 ∈ classid_to_ids classid
          ∧ pr.1 ≠ pr.2 := by
  refine ⟨fun h1 => by simp [build_pos_pairs_for_id, h1], ?_, ?_⟩
  · by_cases h1 : (classid_to_ids classid).length = 1
    · simp [build_pos_pairs_for_id, h1]
    · simp only [build_pos_pairs_for_id, h1, if_false]
      exact List.length_take_le _ _
  · intro pr hpr
    by_cases h1 : (classid_to_ids classid).length = 1
    · simp [build_pos_pairs_for_id, h1] at hpr
    · simp only [build_pos_pairs_for_id, h1, if_false] at hpr
      have hmem : pr ∈ combinations2 (classid_to_ids classid) :=
        (hshuffle (combinations2 (classid_to_ids classid))).mem_iff.1
          (List.mem_of_mem_take hpr)
      exact ⟨(mem_combinations2 hmem).1, (mem_combinations2 hmem).2,
        combinations2_ne hnd hmem⟩

/-- Claim C6 witness: a concrete class with two images, identity shuffle. -/
theorem C6_witness :
    ((fun _ => [1, 2] : ℕ → List ℕ) 0).Nodup
    ∧ ((((fun _ => [1, 2] : ℕ → List ℕ) 0).length = 1 →
          build_pos_pairs_for_id (fun _ => [1, 2]) (fun l => l) 0 50 = [])
        ∧ (build_pos_pairs_for_id (fun _ => [1, 2]) (fun l => l) 0 50).length ≤ 50
        ∧ ∀ pr ∈ build_pos_pairs_for_id (fun _ => [1, 2]) (fun l => l) 0 50,
            pr.1 ∈ (fun _ => [1, 2] : ℕ → List ℕ) 0
              ∧ pr.2 ∈ (fun _ => [1, 2] : ℕ → List ℕ) 0 ∧ pr.1 ≠ pr.2) :=
  ⟨by decide,
    C6_build_pos_pairs_for_id_shape (fun _ => [1, 2]) (fun l => l) 0 50
      (fun l => List.Perm.refl l) (by decide)⟩

/-! ### Claim C7 -/

/-- Claim C7: with a class pool of at least `max_num + 1` distinct classes
(each with at least one image, and the queried class nonempty),
`build_neg_pairs_for_id` returns exactly `max_num` pairs whose first image
belongs to the given class and whose second image belongs to a class
different from the given class. -/
theorem C7_build_neg_pairs_for_id_shape
    (classid_to_ids : ℕ → List ℕ) (shuffle : List ℕ → List ℕ) (r1 r2 : ℕ → ℕ)
    (classid : ℕ) (classes : List ℕ) (max_num : ℕ)
    (hshuffle : List.Perm (shuffle classes) classes)
    (hcard : max_num + 1 ≤ classes.length)
    (hclasses_nd : classes.Nodup)
    (himgs : classid_to_ids classid ≠ [])
    (hne : ∀ c ∈ classes, classid_to_ids c ≠ []) :
    (build_neg_pairs_for_id classid_to_ids shuffle r1 r2 classid classes
        max_num).length = max_num
    ∧ ∀ pr ∈ build_neg_pairs_for_id classid_to_ids shuffle r1 r2 classid classes
        max_num,
        pr.1 ∈ classid_to_ids classid
          ∧ ∃ c ∈ classes, c ≠ classid ∧ pr.2 ∈ classid_to_ids c := by
  have hslen : (pySample shuffle classes (max_num + 1)).length = max_num + 1 :=
    pySample_length hshuffle hcard
  have hsnd : (pySample shuffle classes (max_num + 1)).Nodup :=
    pySample_nodup hshuffle hclasses_nd
  have hssub : ∀ x ∈ pySample shuffle classes (max_num + 1), x ∈ classes :=
    fun x hx => pySample_subset hshuffle hx
  constructor
  · simp [build_neg_pairs_for_id]
  · intro pr hpr
    simp only [build_neg_pairs_for_id, List.mem_map, List.mem_range] at hpr
    obtain ⟨id2, hid2, hpr⟩ := hpr
    set sampled := pySample shuffle classes (max_num + 1) with hsampled
    set negs := if classid ∈ sampled then sampled.erase classid else sampled with hnegs
    have hneglen : max_num ≤ negs.length := by
      rw [hnegs]
      by_cases hin : classid ∈ sampled
      · rw [if_pos hin, List.length_erase_of_mem hin, hslen]
        omega
      · rw [if_neg hin, hslen]
        omega
    have hid2lt : id2 < negs.length := by omega
    set c := negs.getD id2 0 with hc
    have hc_mem : c ∈ negs := by
      rw [hc, List.getD_eq_getElem negs 0 hid2lt]
      exact List.getElem_mem hid2lt
    have hc_sampled : c ∈ sampled := by
      by_cases hin : classid ∈ sampled
      · have hcm : c ∈ sampled.erase classid := by rwa [hnegs, if_pos hin] at hc_mem
        exact List.mem_of_mem_erase hcm
      · rwa [hnegs, if_neg hin] at hc_mem
    have hc_ne : c ≠ classid := by
      by_cases hin : classid ∈ sampled
      · have hcm : c ∈ sampled.erase classid := by rwa [hnegs, if_pos hin] at hc_mem
        exact ((hsnd.mem_erase_iff).1 hcm).1
      · intro he
        exact hin (he ▸ hc_sampled)
    have hc_classes : c ∈ classes := hssub _ hc_sampled
    have himgs1 : (classid_to_ids classid).length ≠ 0 :=
      fun h0 => himgs (List.length_eq_zero.1 h0)
    have himgs2 : (classid_to_ids c).length ≠ 0 :=
      fun h0 => hne _ hc_classes (List.length_eq_zero.1 h0)
    constructor
    · rw [← hpr]
      exact getD_mem_of_length_pos himgs1 (r1 id2)
    · refine ⟨c, hc_classes, hc_ne, ?_⟩
      rw [← hpr]
      exact getD_mem_of_length_pos himgs2 (r2 id2)

/-- Claim C7 witness: two classes, `max_num = 1`, identity shuffle. -/
theorem C7_witness :
    (List.Perm ((fun l => l) ([0, 1] : List ℕ)) [0, 1]
      ∧ 1 + 1 ≤ ([0, 1] : List ℕ).length
      ∧ ([0, 1] : List ℕ).Nodup
      ∧ (fun c => [c + 10] : ℕ → List ℕ) 0 ≠ []
      ∧ ∀ c ∈ ([0, 1] : List ℕ), (fun c => [c + 10] : ℕ → List ℕ) c ≠ [])
    ∧ ((build_neg_pairs_for_id (fun c => [c + 10]) (fun l => l)
          (fun _ => 0) (fun _ => 0) 0 [0, 1] 1).length = 1
        ∧ ∀ pr ∈ build_neg_pairs_for_id (fun c => [c + 10]) (fun l => l)
            (fun _ => 0) (fun _ => 0) 0 [0, 1] 1,
            pr.1 ∈ (fun c => [c + 10] : ℕ → List ℕ) 0
              ∧ ∃ c ∈ ([0, 1] : List ℕ), c ≠ 0
                  ∧ pr.2 ∈ (fun c => [c + 10] : ℕ → List ℕ) c) :=
  ⟨⟨List.Perm.refl _, by decide, by decide, by decide, by decide⟩,
    C7_build_neg_pairs_for_id_shape (fun c => [c + 10]) (fun l => l)
      (fun _ => 0) (fun _ => 0) 0 [0, 1] 1 (List.Perm.refl _) (by decide)
      (by decide) (by decide) (by decide)⟩

/-! ### Claim C8 -/

/-- Claim C8: whenever the negative pool is at least as large as the anchor
list and the anchor and positive lists have equal length, `build_negatives`
returns exactly one negative per anchor/positive pair, in every branch
(`similarities` present or `None`). -/
theorem C8_build_negatives_length
    (cls : ℕ → ℕ) (nTotal : ℕ) (anc_idxs pos_idxs : List ℕ)
    (similarities : Option (ℕ → ℕ → ℚ)) (pool : List ℕ)
    (shuffle : List ℕ → List ℕ) (rndMine : ℕ → ℕ → ℕ) (rndFall : ℕ → ℕ)
    (fuel : ℕ)
    (hshuffle : List.Perm (shuffle pool) pool)
    (hlen : anc_idxs.length = pos_idxs.length)
    (hpool : anc_idxs.length ≤ pool.length) :
    (build_negatives cls nTotal anc_idxs pos_idxs similarities pool shuffle
        rndMine rndFall fuel).length = anc_idxs.length := by
  cases similarities with
  | none => exact pySample_length hshuffle hpool
  | some S =>
    simp [build_negatives, hlen]

/-- Claim C8 witness: both branches at a concrete input of one pair. -/
theorem C8_witness :
    (List.Perm ((fun l => l) ([5, 6] : List ℕ)) [5, 6]
      ∧ ([0] : List ℕ).length = ([1] : List ℕ).length
      ∧ ([0] : List ℕ).length ≤ ([5, 6] : List ℕ).length)
    ∧ (build_negatives (fun j => j) 2 [0] [1] none [5, 6] (fun l => l)
        (fun _ _ => 0) (fun _ => 0) 20).length = ([0] : List ℕ).length :=
  ⟨⟨List.Perm.refl _, by decide, by decide⟩,
    C8_build_negatives_length (fun j => j) 2 [0] [1] none [5, 6] (fun l => l)
      (fun _ _ => 0) (fun _ => 0) 20 (List.Perm.refl _) (by decide) (by decide)⟩

/-! ### Claim C9 -/

/-- Claim C9: a `TripletGenerator` over `num_samples` pairs with batch size
`b ≤ num_samples` (`b > 0`, negative pool at least `b`) has exactly
`num_samples / b` batches; every batch within range contains exactly `b`
anchors, `b` positives and `b` negatives, the anchors of batch `i` being the
images of pair positions `i*b .. i*b + b - 1`; every emitted pair position
lies below `num_samples - num_samples % b`, so the trailing
`num_samples % b` pairs are never emitted. -/
theorem C9_triplet_generator_batches {Img : Type} (g : TripletGenerator Img)
    (augment : Img → Img) (shuffle : List ℕ → List ℕ)
    (hshuffle : List.Perm (shuffle g.neg_imgs_idx) g.neg_imgs_idx)
    (hb : 0 < g.batch_size)
    (hbn : g.batch_size ≤ g.num_samples)
    (hXp : g.Xp.length = g.Xa.length)
    (hpool : g.batch_size ≤ g.neg_imgs_idx.length) :
    g.len = g.num_samples / g.batch_size
    ∧ g.len * g.batch_size + g.num_samples % g.batch_size = g.num_samples
    ∧ ∀ i < g.len,
        ((g.getItem augment shuffle i).1.1.length = g.batch_size
          ∧ (g.getItem augment shuffle i).1.2.1.length = g.batch_size
          ∧ (g.getItem augment shuffle i).1.2.2.length = g.batch_size)
        ∧ (g.getItem augment shuffle i).1.1 =
            ((g.Xa.drop (i * g.batch_size)).take g.batch_size).map
              (fun t => augment (g.imgs t))
        ∧ (i + 1) * g.batch_size ≤ g.num_samples - g.num_samples % g.batch_size := by
  have hdm : g.num_samples / g.batch_size * g.batch_size +
      g.num_samples % g.batch_size = g.num_samples := Nat.div_add_mod' _ _
  refine ⟨rfl, by rw [TripletGenerator.len]; exact hdm, ?_⟩
  intro i hi
  have hi1 : i + 1 ≤ g.len := hi
  have hmul : (i + 1) * g.batch_size ≤ g.len * g.batch_size :=
    Nat.mul_le_mul_right _ hi1
  have hsm : (i + 1) * g.batch_size = i * g.batch_size + g.batch_size :=
    Nat.succ_mul i g.batch_size
  have hlenb : g.len * g.batch_size ≤ g.num_samples := by
    rw [TripletGenerator.len]
    exact Nat.div_mul_le_self _ _
  have hub : i * g.batch_size + g.batch_size ≤ g.Xa.length := by
    rw [← hsm]
    exact le_trans hmul hlenb
  have hcancel : (i + 1) * g.batch_size - i * g.batch_size = g.batch_size := by
    rw [Nat.succ_mul]
    omega
  have hlena : (npSlice g.Xa (i * g.batch_size) ((i + 1) * g.batch_size)).length
      = g.batch_size := by
    rw [npSlice, hcancel, List.length_take, List.length_drop]
    have : g.batch_size ≤ g.Xa.length - i * g.batch_size := by omega
    omega
  have hlenp : (npSlice g.Xp (i * g.batch_size) ((i + 1) * g.batch_size)).length
      = g.batch_size := by
    rw [npSlice, hcancel, List.length_take, List.length_drop, hXp]
    have : g.batch_size ≤ g.Xa.length - i * g.batch_size := by omega
    omega
  refine ⟨⟨?_, ?_, ?_⟩, ?_, ?_⟩
  · simp [TripletGenerator.getItem, hlena]
  · simp [TripletGenerator.getItem, hlenp]
  · simp only [TripletGenerator.getItem, List.length_map]
    rw [pySample_length hshuffle (by rw [hlena]; exact hpool)]
    exact hlena
  · simp only [TripletGenerator.getItem, npSlice, hcancel]
  · have h2 : g.len * g.batch_size = g.num_samples / g.batch_size * g.batch_size := by
      rw [TripletGenerator.len]
    omega

/-- Claim C9 witness: two pairs, batch size one, pool of two negatives. -/
theorem C9_witness :
    (List.Perm ((fun l => l) ([7, 8] : List ℕ)) [7, 8]
      ∧ 0 < (TripletGenerator.mk [0, 1] [2, 3] 1 (fun t : ℕ => t) [7, 8]).batch_size
      ∧ (TripletGenerator.mk [0, 1] [2, 3] 1 (fun t : ℕ => t) [7, 8]).batch_size ≤
          (TripletGenerator.mk [0, 1] [2, 3] 1 (fun t : ℕ => t) [7, 8]).num_samples)
    ∧ ((TripletGenerator.mk [0, 1] [2, 3] 1 (fun t : ℕ => t) [7, 8]).len =
        (TripletGenerator.mk [0, 1] [2, 3] 1 (fun t : ℕ => t) [7, 8]).num_samples / 1) :=
  ⟨⟨List.Perm.refl _, by decide, by decide⟩,
    (C9_triplet_generator_batches
      (TripletGenerator.mk [0, 1] [2, 3] 1 (fun t : ℕ => t) [7, 8])
      (fun t => t) (fun l => l) (List.Perm.refl _) (by decide) (by decide)
      (by decide) (by decide)).1⟩

/-! ### Claim C5 -/

/-- Claim C5: `build_similarities` returns the matrix of dot products of the
L2-normalized embeddings; the matrix is symmetric and, when every embedding is
nonzero, has unit diagonal. -/
theorem C5_build_similarities_normalized_gram {Img : Type} {n d : ℕ}
    (conv : Img → Fin d → ℝ) (all_imgs : Fin n → Img)
    (hnz : ∀ i : Fin n, conv (all_imgs i) ≠ 0) :
    (∀ i j, build_similarities conv all_imgs i j =
        dot (normalizeRow (conv (all_imgs i))) (normalizeRow (conv (all_imgs j))))
    ∧ (∀ i j, build_similarities conv all_imgs i j =
        build_similarities conv all_imgs j i)
    ∧ ∀ i, build_similarities conv all_imgs i i = 1 := by
  refine ⟨fun i j => rfl, fun i j => ?_, fun i => ?_⟩
  · unfold build_similarities dot
    exact Finset.sum_congr rfl (fun k _ => mul_comm _ _)
  · unfold build_similarities dot normalizeRow l2norm
    set v := conv (all_imgs i) with hv
    have hpos : 0 < ∑ k, v k ^ 2 := by
      have hex : ∃ k, v k ≠ 0 := by
        by_contra hno
        push_neg at hno
        exact hnz i (funext hno)
      obtain ⟨k0, hk0⟩ := hex
      have h1 : 0 < v k0 ^ 2 := by
        rw [sq]
        exact mul_self_pos.2 hk0
      exact Finset.sum_pos' (fun k _ => sq_nonneg _) ⟨k0, Finset.mem_univ k0, h1⟩
    have hsq : Real.sqrt (∑ k, v k ^ 2) * Real.sqrt (∑ k, v k ^ 2) = ∑ k, v k ^ 2 :=
      Real.mul_self_sqrt (le_of_lt hpos)
    have hcalc : ∀ k : Fin d,
        v k / Real.sqrt (∑ k2, v k2 ^ 2) * (v k / Real.sqrt (∑ k2, v k2 ^ 2))
          = v k ^ 2 / (∑ k2, v k2 ^ 2) := by
      intro k
      rw [div_mul_div_comm, hsq, sq]
    calc ∑ k, v k / Real.sqrt (∑ k2, v k2 ^ 2) * (v k / Real.sqrt (∑ k2, v k2 ^ 2))
        = ∑ k, v k ^ 2 / (∑ k2, v k2 ^ 2) :=
          Finset.sum_congr rfl (fun k _ => hcalc k)
      _ = (∑ k, v k ^ 2) / (∑ k2, v k2 ^ 2) := by rw [← Finset.sum_div]
      _ = 1 := div_self (ne_of_gt hpos)

/-- Claim C5 witness: a single one-dimensional embedding equal to `1`. -/
theorem C5_witness :
    build_similarities (fun _ : Unit => fun _ : Fin 1 => (1 : ℝ))
      (fun _ : Fin 1 => ()) 0 0 = 1 := by
  have h : ∀ i : Fin 1,
      (fun _ : Unit => fun _ : Fin 1 => (1 : ℝ)) ((fun _ : Fin 1 => ()) i) ≠ 0 := by
    intro i hcon
    have h0 := congrFun hcon 0
    norm_num at h0
  exact (C5_build_similarities_normalized_gram _ _ h).2.2 0

/-! ### Helper lemmas: ranked prefixes of an argsort -/

theorem argsort_take_asc {n : ℕ} (key : Fin n → ℝ) {t : ℕ} (ht : t ≤ n) :
    ((argsort key).take t).length = t
    ∧ ((argsort key).take t).Pairwise (fun i j => key i ≤ key j)
    ∧ ∀ i ∈ (argsort key).take t, ∀ j : Fin n, j ∉ (argsort key).take t →
        key i ≤ key j := by
  refine ⟨?_, pairwise_take (argsort_sorted key) t, ?_⟩
  · rw [List.length_take, argsort_length]
    omega
  · intro i hi j hj
    have hsplit : j ∈ (argsort key).take t ++ (argsort key).drop t := by
      rw [List.take_append_drop]
      exact mem_argsort key j
    rcases List.mem_append.1 hsplit with h | h
    · exact absurd h hj
    · exact pairwise_take_drop (argsort_sorted key) t hi h

theorem argsort_reverse_sorted {n : ℕ} (key : Fin n → ℝ) :
    ((argsort key).reverse).Pairwise (fun i j => key j ≤ key i) :=
  (List.pairwise_reverse).2 (argsort_sorted key)

theorem argsort_reverse_perm {n : ℕ} (key : Fin n → ℝ) :
    List.Perm ((argsort key).reverse) (List.finRange n) :=
  (List.reverse_perm _).trans (argsort_perm key)

theorem argsort_reverse_take_desc {n : ℕ} (key : Fin n → ℝ) {t : ℕ} (ht : t ≤ n) :
    (((argsort key).reverse).take t).length = t
    ∧ (((argsort key).reverse).take t).Pairwise (fun i j => key j ≤ key i)
    ∧ ∀ i ∈ ((argsort key).reverse).take t, ∀ j : Fin n,
        j ∉ ((argsort key).reverse).take t → key j ≤ key i := by
  refine ⟨?_, pairwise_take (argsort_reverse_sorted key) t, ?_⟩
  · rw [List.length_take, List.length_reverse, argsort_length]
    omega
  · intro i hi j hj
    have hsplit : j ∈ ((argsort key).reverse).take t ++ ((argsort key).reverse).drop t := by
      rw [List.take_append_drop]
      exact (argsort_reverse_perm key).mem_iff.2 (List.mem_finRange j)
    rcases List.mem_append.1 hsplit with h | h
    · exact absurd h hj
    · exact pairwise_take_drop (argsort_reverse_sorted key) t hi h

theorem map_fst_pairing {n : ℕ} (key : Fin n → ℝ) (l : List (Fin n)) :
    (l.map (fun i => (i, key i))).map Prod.fst = l := by
  rw [List.map_map]
  exact List.map_id'' (fun i => rfl) l

theorem rankedTake_spec {n : ℕ} (key : Fin n → ℝ) (r : ℝ → ℝ → Prop)
    (l : List (Fin n)) (t : ℕ)
    (hsorted : (l.take t).Pairwise (fun i j => r (key i) (key j)))
    (hdom : ∀ i ∈ l.take t, ∀ j : Fin n, j ∉ l.take t → r (key i) (key j)) :
    (∀ pr ∈ (l.take t).map (fun i => (i, key i)), pr.2 = key pr.1)
    ∧ ((l.take t).map (fun i => (i, key i))).Pairwise (fun a b => r a.2 b.2)
    ∧ ∀ pr ∈ (l.take t).map (fun i => (i, key i)), ∀ j : Fin n,
        j ∉ ((l.take t).map (fun i => (i, key i))).map Prod.fst → r pr.2 (key j) := by
  refine ⟨?_, ?_, ?_⟩
  · intro pr hpr
    obtain ⟨i, _, rfl⟩ := List.mem_map.1 hpr
    rfl
  · exact (List.pairwise_map).2 hsorted
  · intro pr hpr j hj
    obtain ⟨i, hi, rfl⟩ := List.mem_map.1 hpr
    rw [map_fst_pairing] at hj
    exact hdom i hi j hj

/-! ### Claim C4 -/

/-- Claim C4: for `topn` not exceeding the number of stored embeddings,
`most_sim` returns exactly `topn` (index, score) pairs: in `"cosine"` mode the
scores are the dot products against the query's normalized embedding, listed
in non-increasing order, and every returned index has a dot product at least
as large as every non-returned index; in `"euclidean"` mode the scores are
Euclidean distances in non-decreasing order, every returned index at least as
close as every non-returned one.  Likewise `most_similar` of the
Totally-Looks-Like notebook returns the `topn` images of smallest embedding
distance in non-decreasing order. -/
theorem C4_most_sim_returns_ranked_topn {n d m : ℕ} (emb : Fin n → Fin d → ℝ)
    (pixelwise : Fin n → Fin m → ℝ) (idx : Fin n) {topn : ℕ} (htop : topn ≤ n)
    {Img : Type} {n2 d2 : ℕ} (all_embeddings : Fin n2 → Fin d2 → ℝ)
    (new_emb : Fin d2 → ℝ) (negative_images : Fin n2 → Img) {topn2 : ℕ}
    (htop2 : topn2 ≤ n2) :
    ((most_sim emb pixelwise idx topn .cosine).length = topn
      ∧ (∀ pr ∈ most_sim emb pixelwise idx topn .cosine,
          pr.2 = cosSims emb idx pr.1)
      ∧ (most_sim emb pixelwise idx topn .cosine).Pairwise (fun a b => b.2 ≤ a.2)
      ∧ ∀ pr ∈ most_sim emb pixelwise idx topn .cosine, ∀ j : Fin n,
          j ∉ (most_sim emb pixelwise idx topn .cosine).map Prod.fst →
            cosSims emb idx j ≤ pr.2)
    ∧ ((most_sim emb pixelwise idx topn .euclidean).length = topn
      ∧ (∀ pr ∈ most_sim emb pixelwise idx topn .euclidean,
          pr.2 = eucDists emb idx pr.1)
      ∧ (most_sim emb pixelwise idx topn .euclidean).Pairwise (fun a b => a.2 ≤ b.2)
      ∧ ∀ pr ∈ most_sim emb pixelwise idx topn .euclidean, ∀ j : Fin n,
          j ∉ (most_sim emb pixelwise idx topn .euclidean).map Prod.fst →
            pr.2 ≤ eucDists emb idx j)
    ∧ ∃ idxs : List (Fin n2), idxs.Nodup
        ∧ most_similar all_embeddings new_emb negative_images topn2 =
            idxs.map (fun i => (negative_images i, tllDists all_embeddings new_emb i))
        ∧ idxs.length = topn2
        ∧ idxs.Pairwise (fun i j =>
            tllDists all_embeddings new_emb i ≤ tllDists all_embeddings new_emb j)
        ∧ ∀ i ∈ idxs, ∀ j : Fin n2, j ∉ idxs →
            tllDists all_embeddings new_emb i ≤ tllDists all_embeddings new_emb j := by
  refine ⟨?_, ?_, ?_⟩
  · have hdef : most_sim emb pixelwise idx topn .cosine
        = (((argsort (cosSims emb idx)).reverse).take topn).map
            (fun i => (i, cosSims emb idx i)) := rfl
    have hbase := argsort_reverse_take_desc (cosSims emb idx) htop
    have hspec := rankedTake_spec (cosSims emb idx) (fun a b => b ≤ a)
      ((argsort (cosSims emb idx)).reverse) topn hbase.2.1 hbase.2.2
    rw [hdef]
    refine ⟨?_, hspec.1, hspec.2.1, fun pr hpr j hj => hspec.2.2 pr hpr j hj⟩
    rw [List.length_map]
    exact hbase.1
  · have hdef : most_sim emb pixelwise idx topn .euclidean
        = ((argsort (eucDists emb idx)).take topn).map
            (fun i => (i, eucDists emb idx i)) := rfl
    have hbase := argsort_take_asc (eucDists emb idx) htop
    have hspec := rankedTake_spec (eucDists emb idx) (fun a b => a ≤ b)
      (argsort (eucDists emb idx)) topn hbase.2.1 hbase.2.2
    rw [hdef]
    refine ⟨?_, hspec.1, hspec.2.1, fun pr hpr j hj => hspec.2.2 pr hpr j hj⟩
    rw [List.length_map]
    exact hbase.1
  · refine ⟨(argsort (tllDists all_embeddings new_emb)).take topn2, ?_, rfl, ?_, ?_, ?_⟩
    · exact (argsort_nodup (tllDists all_embeddings new_emb)).sublist
        (List.take_sublist _ _)
    · exact (argsort_take_asc (tllDists all_embeddings new_emb) htop2).1
    · exact (argsort_take_asc (tllDists all_embeddings new_emb) htop2).2.1
    · exact (argsort_take_asc (tllDists all_embeddings new_emb) htop2).2.2

/-- Claim C4 witness: a single stored embedding at `topn = 1` for both
retrieval functions. -/
theorem C4_witness :
    (1 ≤ 1
      ∧ (most_sim (fun _ : Fin 1 => fun _ : Fin 1 => (1 : ℝ))
          (fun _ : Fin 1 => fun _ : Fin 1 => (0 : ℝ)) 0 1 .cosine).length = 1) :=
  ⟨le_refl 1,
    (C4_most_sim_returns_ranked_topn (fun _ : Fin 1 => fun _ : Fin 1 => (1 : ℝ))
      (fun _ : Fin 1 => fun _ : Fin 1 => (0 : ℝ)) 0 (le_refl 1)
      (fun _ : Fin 1 => fun _ : Fin 1 => (1 : ℝ)) (fun _ : Fin 1 => (0 : ℝ))
      (fun _ : Fin 1 => (0 : ℕ)) (le_refl 1)).1.1⟩

/-! ### Helper lemmas: the query heads the cosine ranking -/

theorem desc_head_eq_of_strict_max {n : ℕ} {key : Fin n → ℝ} {q h : Fin n}
    {t : List (Fin n)}
    (heq : (argsort key).reverse = h :: t)
    (hmax : ∀ j : Fin n, j ≠ q → key j < key q) : h = q := by
  rcases eq_or_ne h q with he | hne
  · exact he
  · exfalso
    have hqmem : q ∈ (argsort key).reverse :=
      (argsort_reverse_perm key).mem_iff.2 (List.mem_finRange q)
    rw [heq] at hqmem
    rcases List.mem_cons.1 hqmem with he2 | hqt
    · exact hne he2.symm
    · have hsorted := argsort_reverse_sorted key
      rw [heq] at hsorted
      have hle : key q ≤ key h := (List.pairwise_cons.1 hsorted).1 q hqt
      have hlt : key h < key q := hmax h hne
      linarith

theorem found_classes_embedding_eq {n d m' : ℕ} (emb : Fin n → Fin d → ℝ)
    (pixelwise : Fin n → Fin m' → ℝ) (id_to_classid : Fin n → ℕ) (q : Fin n)
    (k : ℕ)
    (hq : ∀ j : Fin n, j ≠ q → cosSims emb q j < cosSims emb q q) :
    ((most_sim emb pixelwise q (k + 1) .cosine).drop 1).map
        (fun p => id_to_classid p.1)
      = (spec_topk_excluding_query emb q k).map id_to_classid := by
  rcases hr : (argsort (cosSims emb q)).reverse with _ | ⟨h, t⟩
  · exfalso
    have hqmem : q ∈ (argsort (cosSims emb q)).reverse :=
      (argsort_reverse_perm (cosSims emb q)).mem_iff.2 (List.mem_finRange q)
    rw [hr] at hqmem
    simp at hqmem
  · have hhq : h = q := desc_head_eq_of_strict_max hr hq
    rw [hhq] at hr
    have hnd : (q :: t).Nodup := by
      rw [← hr]
      exact (List.nodup_reverse).2 (argsort_nodup (cosSims emb q))
    have hqt : q ∉ t := (List.nodup_cons.1 hnd).1
    have hlhs : most_sim emb pixelwise q (k + 1) .cosine
        = (((argsort (cosSims emb q)).reverse).take (k + 1)).map
            (fun i => (i, cosSims emb q i)) := rfl
    have hrhs : spec_topk_excluding_query emb q k
        = ((((argsort (cosSims emb q)).reverse).filter
            (fun j => decide (j ≠ q))).take k) := rfl
    rw [hlhs, hrhs, hr]
    have hfilter : (q :: t).filter (fun j => decide (j ≠ q)) = t := by
      rw [List.filter_cons]
      have hq0 : (decide (q ≠ q) : Bool) = false := by simp
      rw [hq0]
      simp only [Bool.false_eq_true, if_false]
      apply List.filter_eq_self.2
      intro a ha
      have haq : a ≠ q := fun he => hqt (he ▸ ha)
      simpa using haq
    rw [hfilter, List.take_succ_cons]
    rw [List.map_cons, List.drop_one, List.tail_cons, List.map_map]
    rfl

/-! ### Claim C3 -/

/-- Claim C3: when every test query is strictly most similar to itself under
the cosine ranking, `recall_k` in `"embedding"` mode returns the fraction of
test queries for which an image of the query's own class appears among the
top-`k` most similar images, the query itself excluded from the retrieved
list. -/
theorem C3_recall_k_embedding_fraction {n d m' : ℕ} (emb : Fin n → Fin d → ℝ)
    (pixelwise : Fin n → Fin m' → ℝ) (id_to_classid : Fin n → ℕ)
    (classid_to_ids : ℕ → List (Fin n)) (split_num num_classes : ℕ)
    (rndSample : Fin n → List (Fin n)) (k : ℕ)
    (hstrict : ∀ q ∈ test_ids classid_to_ids split_num num_classes,
        ∀ j : Fin n, j ≠ q → cosSims emb q j < cosSims emb q q) :
    recall_k emb pixelwise id_to_classid classid_to_ids split_num num_classes
        rndSample k .embedding
      = (((test_ids classid_to_ids split_num num_classes).countP (fun q =>
            ((spec_topk_excluding_query emb q k).map id_to_classid).contains
              (id_to_classid q)) : ℕ) : ℚ)
        / ((test_ids classid_to_ids split_num num_classes).length : ℚ) := by
  have hdef : recall_k emb pixelwise id_to_classid classid_to_ids split_num
      num_classes rndSample k .embedding
      = (((test_ids classid_to_ids split_num num_classes).countP (fun img_idx =>
            (((most_sim emb pixelwise img_idx (k + 1) .cosine).drop 1).map
              (fun p => id_to_classid p.1)).contains (id_to_classid img_idx)) : ℕ) : ℚ)
        / ((test_ids classid_to_ids split_num num_classes).length : ℚ) := rfl
  rw [hdef]
  congr 1
  norm_cast
  apply List.countP_congr
  intro q hq
  rw [found_classes_embedding_eq emb pixelwise id_to_classid q k (hstrict q hq)]

/-- Claim C3 witness: two images of one test class with orthonormal
embeddings; each query is strictly most similar to itself. -/
theorem C3_witness :
    recall_k (fun i : Fin 2 => fun _ : Fin 1 => if (i : ℕ) = 0 then (1 : ℝ) else -1)
      (fun _ : Fin 2 => fun _ : Fin 1 => (0 : ℝ)) (fun _ : Fin 2 => (0 : ℕ))
      (fun c : ℕ => if c = 0 then ([0, 1] : List (Fin 2)) else []) 0 2
      (fun _ : Fin 2 => ([] : List (Fin 2))) 1 .embedding
      = (((test_ids (fun c : ℕ => if c = 0 then ([0, 1] : List (Fin 2)) else []) 0 2).countP
          (fun q => ((spec_topk_excluding_query
              (fun i : Fin 2 => fun _ : Fin 1 => if (i : ℕ) = 0 then (1 : ℝ) else -1)
              q 1).map (fun _ : Fin 2 => (0 : ℕ))).contains
            ((fun _ : Fin 2 => (0 : ℕ)) q)) : ℕ) : ℚ)
        / ((test_ids (fun c : ℕ => if c = 0 then ([0, 1] : List (Fin 2)) else []) 0 2).length : ℚ) := by
  apply C3_recall_k_embedding_fraction
  intro q hq j hj
  unfold cosSims dot normalizeRow l2norm
  fin_cases q <;> fin_cases j <;> simp_all [Fin.sum_univ_one]

/-! ### Claim C10 -/

/-- Claim C10: when some class in the test range has more than one image,
`test_ids` is non-empty (so the unguarded division in `recall_k` never
divides by zero) and the returned value lies in `[0, 1]`, in every mode. -/
theorem C10_recall_k_division_guarded {n d m' : ℕ} (emb : Fin n → Fin d → ℝ)
    (pixelwise : Fin n → Fin m' → ℝ) (id_to_classid : Fin n → ℕ)
    (classid_to_ids : ℕ → List (Fin n)) (split_num num_classes : ℕ)
    (rndSample : Fin n → List (Fin n)) (k : ℕ) (mode : RecallMode)
    (hex : ∃ c, split_num ≤ c ∧ c < num_classes - 1
      ∧ 1 < (classid_to_ids c).length) :
    test_ids classid_to_ids split_num num_classes ≠ []
    ∧ 0 ≤ recall_k emb pixelwise id_to_classid classid_to_ids split_num
        num_classes rndSample k mode
    ∧ recall_k emb pixelwise id_to_classid classid_to_ids split_num num_classes
        rndSample k mode ≤ 1 := by
  obtain ⟨c, hc1, hc2, hc3⟩ := hex
  have hmem_range : c ∈ List.range' split_num (num_classes - 1 - split_num) := by
    rw [List.mem_range'_1]
    omega
  have himg : classid_to_ids c ≠ [] := by
    intro he
    rw [he] at hc3
    simp at hc3
  obtain ⟨x, hx⟩ := List.exists_mem_of_ne_nil _ himg
  have hxtid : x ∈ test_ids classid_to_ids split_num num_classes := by
    unfold test_ids
    rw [List.mem_flatMap]
    refine ⟨c, hmem_range, ?_⟩
    show x ∈ if 1 < (classid_to_ids c).length then classid_to_ids c else []
    rw [if_pos hc3]
    exact hx
  have htne : test_ids classid_to_ids split_num num_classes ≠ [] :=
    List.ne_nil_of_mem hxtid
  have hlen : 0 < (test_ids classid_to_ids split_num num_classes).length :=
    List.length_pos.2 htne
  have hlenq : (0 : ℚ) < ((test_ids classid_to_ids split_num num_classes).length : ℚ) := by
    exact_mod_cast hlen
  refine ⟨htne, ?_, ?_⟩ <;> cases mode
  · exact div_nonneg (by positivity) (le_of_lt hlenq)
  · exact div_nonneg (by positivity) (le_of_lt hlenq)
  · exact div_nonneg (by positivity) (le_of_lt hlenq)
  · rw [show recall_k emb pixelwise id_to_classid classid_to_ids split_num
        num_classes rndSample k .embedding
        = (((test_ids classid_to_ids split_num num_classes).countP (fun img_idx =>
            (((most_sim emb pixelwise img_idx (k + 1) .cosine).drop 1).map
              (fun p => id_to_classid p.1)).contains (id_to_classid img_idx)) : ℕ) : ℚ)
          / ((test_ids classid_to_ids split_num num_classes).length : ℚ) from rfl]
    rw [div_le_one hlenq]
    exact_mod_cast List.countP_le_length _
  · rw [show recall_k emb pixelwise id_to_classid classid_to_ids split_num
        num_classes rndSample k .random
        = (((test_ids classid_to_ids split_num num_classes).countP (fun img_idx =>
            ((rndSample img_idx).map id_to_classid).contains (id_to_classid img_idx)) : ℕ) : ℚ)
          / ((test_ids classid_to_ids split_num num_classes).length : ℚ) from rfl]
    rw [div_le_one hlenq]
    exact_mod_cast List.countP_le_length _
  · rw [show recall_k emb pixelwise id_to_classid classid_to_ids split_num
        num_classes rndSample k .image
        = (((test_ids classid_to_ids split_num num_classes).countP (fun img_idx =>
            (((most_sim emb pixelwise img_idx (k + 1) .image).drop 1).map
              (fun p => id_to_classid p.1)).contains (id_to_classid img_idx)) : ℕ) : ℚ)
          / ((test_ids classid_to_ids split_num num_classes).length : ℚ) from rfl]
    rw [div_le_one hlenq]
    exact_mod_cast List.countP_le_length _

/-- Claim C10 witness: the concrete test split of the C3 witness, in
`"random"` mode. -/
theorem C10_witness :
    test_ids (fun c : ℕ => if c = 0 then ([0, 1] : List (Fin 2)) else []) 0 2 ≠ []
    ∧ 0 ≤ recall_k (fun _ : Fin 2 => fun _ : Fin 1 => (0 : ℝ))
        (fun _ : Fin 2 => fun _ : Fin 1 => (0 : ℝ)) (fun _ : Fin 2 => (0 : ℕ))
        (fun c : ℕ => if c = 0 then ([0, 1] : List (Fin 2)) else []) 0 2
        (fun _ : Fin 2 => ([] : List (Fin 2))) 3 .random
    ∧ recall_k (fun _ : Fin 2 => fun _ : Fin 1 => (0 : ℝ))
        (fun _ : Fin 2 => fun _ : Fin 1 => (0 : ℝ)) (fun _ : Fin 2 => (0 : ℕ))
        (fun c : ℕ => if c = 0 then ([0, 1] : List (Fin 2)) else []) 0 2
        (fun _ : Fin 2 => ([] : List (Fin 2))) 3 .random ≤ 1 :=
  C10_recall_k_division_guarded _ _ _ _ _ _ _ _ _
    ⟨0, by omega, by omega, by decide⟩

end DLCourse
